import Mathlib

/-!
Shallow embedding of the core of a vectorized, pull-based PromQL execution
engine, together with proofs about the behaviour of its operators.

Conventions of the embedding:
* Go `float64` sample values are modelled as rationals; no property proved
  here depends on floating-point rounding.
* Go `int64` timestamps are modelled as `Int` and `uint64` sample IDs as
  `Nat`; no property proved here depends on machine-word overflow.
* A Go slice result that distinguishes `nil` from an empty slice is
  modelled as `Option (List _)`: `none` for `nil`, `some []` for a
  non-nil empty slice.
* Fallible Go functions returning `(T, error)` are modelled as
  `Except EngineError T`.
* A `context.Context` is modelled by whether it has been cancelled.
-/

/-- A label set: an ordered list of name/value pairs (model of `labels.Labels`). -/
abbrev LabelSet := List (String × String)

/-- Model of `model.StepVector`: the values for one evaluation step. -/
structure StepVector where
  T : Int
  SampleIDs : List Nat
  Samples : List ℚ
deriving DecidableEq, Repr

/-- Errors produced by the engine. `wrap` models `errors.Wrap` from
efficientgo/core, `notSupportedExpr` models `parse.ErrNotSupportedExpr`
(declared outside the given sources), `contextCanceled` models
`context.Canceled`, and `errorMsg` models an error built with
`fmt.Errorf`. -/
inductive EngineError where
  | contextCanceled
  | notSupportedExpr
  | notImplemented
  | errorMsg (msg : String)
  | wrap (inner : EngineError) (msg : String)
deriving DecidableEq, Repr

/-- Model of Go `errors.Is`: an error matches the target if it is the
target or wraps an error that matches it. -/
def errorsIs (e target : EngineError) : Bool :=
  match e with
  | .wrap inner msg => decide (EngineError.wrap inner msg = target) || errorsIs inner target
  | x => decide (x = target)

/-- Model of `context.Context`: only cancellation state is relevant. -/
structure Ctx where
  canceled : Bool
deriving DecidableEq, Repr

/-- A context that has not been cancelled. -/
def liveCtx : Ctx := ⟨false⟩

/-- A context that has been cancelled; polling it yields `contextCanceled`. -/
def canceledCtx : Ctx := ⟨true⟩

/-! ## Vectorized aggregation accumulators (execution/aggregate, vector table) -/

/-- Model of the `vectorAccumulator` function type. -/
abbrev VectorAccumulator := List ℚ → ℚ

/-- Model of gonum `floats.Sum`. -/
def floatsSum (inp : List ℚ) : ℚ := inp.foldl (· + ·) 0

/-- Model of gonum `floats.Max`. The Go function panics on an empty slice;
the model returns 0 there, a case no proof below relies on. -/
def floatsMax (inp : List ℚ) : ℚ :=
  match inp with
  | [] => 0
  | x :: xs => xs.foldl max x

/-- Model of gonum `floats.Min`. The Go function panics on an empty slice;
the model returns 0 there, a case no proof below relies on. -/
def floatsMin (inp : List ℚ) : ℚ :=
  match inp with
  | [] => 0
  | x :: xs => xs.foldl min x

/-- The Welford loop inside the `stdvar` accumulator closure of
`newVectorAccumulator`: state is `(groupCount, mean, value)`. -/
def welfordLoop : List ℚ → (Nat × ℚ × ℚ) → (Nat × ℚ × ℚ)
  | [], st => st
  | v :: rest, (groupCount, mean, value) =>
    let gc := groupCount + 1
    let delta := v - mean
    let mean2 := mean + delta / (gc : ℚ)
    let value2 := value + delta * (v - mean2)
    welfordLoop rest (gc, mean2, value2)

/-- The closure returned by `newVectorAccumulator` for `"stdvar"`.
Inside the closure the Go code switches on the captured kind string; the
closure is only ever constructed with the kind equal to `"stdvar"` (see
`newVectorAccumulator` below), so it returns `value / groupCount`; the
`"stddev"` arm of the inner switch (`math.Sqrt` of the same quotient) is
dead code. Division by zero (empty input, NaN in Go) is rational division
by zero here; no proof below evaluates the closure on an empty list. -/
def stdvarAccumulator (inp : List ℚ) : ℚ :=
  let st := welfordLoop inp (0, 0, 0)
  st.2.2 / (st.1 : ℚ)

/-- Model of `newVectorAccumulator`. The Go function switches on
`parser.ItemTypeStr[expr]`; the model takes that string directly.
In the source, `case "stddev":` has an EMPTY body, and Go switch cases do
not fall through, so for `"stddev"` control exits the switch and reaches
the trailing `errors.Wrap(parse.ErrNotSupportedExpr, msg)` return; the
model reproduces that behaviour. -/
def newVectorAccumulator (t : String) : Except EngineError VectorAccumulator :=
  match t with
  | "sum" => .ok floatsSum
  | "max" => .ok floatsMax
  | "min" => .ok floatsMin
  | "count" => .ok (fun inp => (inp.length : ℚ))
  | "stddev" => .error (.wrap .notSupportedExpr ("unknown aggregation function " ++ t))
  | "stdvar" => .ok stdvarAccumulator
  | "avg" => .ok (fun inp => floatsSum inp / (inp.length : ℚ))
  | "group" => .ok (fun _ => 1)
  | _ => .error (.wrap .notSupportedExpr ("unknown aggregation function " ++ t))

/-- Model of the `vectorTable` struct. -/
structure VectorTable where
  timestamp : Int
  value : ℚ
  hasValue : Bool
  accumulator : VectorAccumulator

/-- Model of `newVectorizedTable`: remaining fields take Go zero values. -/
def newVectorizedTable (a : VectorAccumulator) : VectorTable :=
  ⟨0, 0, false, a⟩

/-- The loop body of `newVectorizedTables`, by remaining iteration count:
each slot constructs an accumulator for the same aggregation kind and a
construction error aborts the whole loop. -/
def newVectorizedTablesAux (t : String) : Nat → Except EngineError (List VectorTable)
  | 0 => .ok []
  | n + 1 =>
    match newVectorAccumulator t with
    | .error e => .error e
    | .ok acc =>
      match newVectorizedTablesAux t n with
      | .error e => .error e
      | .ok rest => .ok (newVectorizedTable acc :: rest)

/-- Model of `newVectorizedTables`: one vector table per step-batch slot. -/
def newVectorizedTables (stepsBatch : Nat) (t : String) : Except EngineError (List VectorTable) :=
  newVectorizedTablesAux t stepsBatch

/-- Model of `aggregate.initializeVectorizedTables`. The scalar-table
path `initializeScalarTables` depends on the child operator and series
hashing; its outcome is passed in as `scalarInit` over an arbitrary
result type `σ`, and the vectorized outcome is tagged `Sum.inl` while the
scalar outcome is tagged `Sum.inr`. The Go code checks
`errors.Is(err, parse.ErrNotSupportedExpr)` first and falls back to the
scalar tables in that case; any other error is returned as is. -/
def initializeVectorizedTables {σ : Type} (stepsBatch : Nat) (t : String)
    (scalarInit : Except EngineError σ) :
    Except EngineError ((List VectorTable × List LabelSet) ⊕ σ) :=
  match newVectorizedTables stepsBatch t with
  | .error e =>
    if errorsIs e .notSupportedExpr then scalarInit.map Sum.inr
    else .error e
  | .ok tables => .ok (Sum.inl (tables, [[]]))

/-! ## Vector-scalar binary operator (binary package, scalarOperator) -/

/-- Model of the `operation` function type of the binary package: it maps
the pair of operands and `operandValIdx` to the output value and a keep
flag (comparison operators without `bool` drop non-matching samples via
the flag). -/
abbrev Operation := (ℚ × ℚ) → Nat → (ℚ × Bool)

/-- Model of the `getOperandsFunc` type. -/
abbrev GetOperandsFunc := StepVector → Nat → ℚ → ℚ × ℚ

/-- Model of `getOperandsScalarLeft`. Out-of-range access (impossible in
the loop of `Next`) is modelled as 0. -/
def getOperandsScalarLeft (v : StepVector) (i : Nat) (scalar : ℚ) : ℚ × ℚ :=
  (scalar, v.Samples.getD i 0)

/-- Model of `getOperandsScalarRight`. -/
def getOperandsScalarRight (v : StepVector) (i : Nat) (scalar : ℚ) : ℚ × ℚ :=
  (v.Samples.getD i 0, scalar)

/-- Modelled from the spec: a comparison operation without the `bool`
modifier (the concrete `operation` values built by `newOperation` are not
among the given sources). Per the spec, comparison operators without a
`bool` modifier filter out non-matching samples rather than producing
0/1: the operation keeps the operand selected by `operandValIdx` when
lhs > rhs holds and drops the sample otherwise. -/
def cmpGtNoBool : Operation := fun operands operandValIdx =>
  ((if operandValIdx = 0 then operands.1 else operands.2), decide (operands.1 > operands.2))

/-- Pool bookkeeping observed during one `scalarOperator.Next` call:
how many `GetVectorBatch`/`GetStepVector` calls the operator makes on its
own pool, how many `PutStepVector` calls on its own pool, and how many
`PutStepVector`/`PutVectors` calls on the child operator's pool. -/
structure PoolTrace where
  selfBatchGets : Nat
  selfStepGets : Nat
  selfStepPuts : Nat
  childStepPuts : Nat
  childBatchPuts : Nat
deriving DecidableEq, Repr

/-- The all-zero pool trace. -/
def emptyTrace : PoolTrace := ⟨0, 0, 0, 0, 0⟩

/-- The inner per-sample loop of `scalarOperator.Next` for one input step
vector: starts from the step vector handed out by `GetStepVector(vector.T)`
(modelled from the spec: timestamp `T`, empty sample and ID slices) and
appends the value and sample ID of every sample the operation keeps. -/
def scalarProcessVector (getOperands : GetOperandsFunc) (operation : Operation)
    (operandValIdx : Nat) (scalar : ℚ) (vector : StepVector) : StepVector :=
  (List.range vector.Samples.length).foldl
    (fun step i =>
      let operands := getOperands vector i scalar
      let r := operation operands operandValIdx
      if r.2 then
        ⟨step.T, step.SampleIDs ++ [vector.SampleIDs.getD i 0], step.Samples ++ [r.1]⟩
      else step)
    ⟨vector.T, [], []⟩

/-- The outer loop of `scalarOperator.Next` over the input batch, with
pool bookkeeping. For each input vector the operator gets a fresh step
vector from its own pool; when every sample of the step was dropped it
executes `continue`, which skips BOTH the append to the output batch and
the `PutStepVector` of the child's input vector (and never returns the
fresh step vector either). Otherwise the step is appended and the child
vector is returned to the child's pool. -/
def scalarProcessBatch (getOperands : GetOperandsFunc) (operation : Operation)
    (operandValIdx : Nat) (scalar : ℚ) (inp : List StepVector) :
    List StepVector × PoolTrace :=
  inp.foldl
    (fun acc vector =>
      let tr1 := { acc.2 with selfStepGets := acc.2.selfStepGets + 1 }
      let step := scalarProcessVector getOperands operation operandValIdx scalar vector
      if step.Samples.length = 0 then (acc.1, tr1)
      else (acc.1 ++ [step], { tr1 with childStepPuts := tr1.childStepPuts + 1 }))
    ([], { emptyTrace with selfBatchGets := 1 })

/-- Model of `scalarOperator.Next`. The child's `Next` outcome is passed
in as `childNext` and the one-shot `loadSeries` outcome (whose series
content `Next` does not read) as `childSeries`. The source does NOT poll
the context in `Next`; accordingly `_ctx` is deliberately unread. After
processing, the child batch is released with `PutVectors(in)`. -/
def scalarOperatorNext (getOperands : GetOperandsFunc) (operation : Operation)
    (operandValIdx : Nat) (scalar : ℚ) (_ctx : Ctx)
    (childSeries : Except EngineError Unit)
    (childNext : Except EngineError (Option (List StepVector))) :
    (Except EngineError (Option (List StepVector))) × PoolTrace :=
  match childNext with
  | .error e => (.error e, emptyTrace)
  | .ok none => (.ok none, emptyTrace)
  | .ok (some inp) =>
    match childSeries with
    | .error e => (.error e, emptyTrace)
    | .ok _ =>
      let r := scalarProcessBatch getOperands operation operandValIdx scalar inp
      (.ok (some r.1), { r.2 with childBatchPuts := 1 })

/-! ## Hash aggregation operator (execution/aggregate, aggregate.Next) -/

/-- Model of `aggregate.Next`. Control flow from the source: poll the
context at entry; call the child's `Next` (outcome passed as
`childNext`); propagate errors; translate a `nil` batch to the terminal
marker; run the one-shot `initializeTables` (outcome passed as
`initTables`); then dispatch the step vectors to the per-slot workers and
collect outputs in input order, which is abstracted as `process` since no
claim below depends on the table computation itself. -/
def aggregateNext (ctx : Ctx) (childNext : Except EngineError (Option (List StepVector)))
    (initTables : Except EngineError Unit) (process : List StepVector → List StepVector) :
    Except EngineError (Option (List StepVector)) :=
  if ctx.canceled then .error .contextCanceled
  else
    match childNext with
    | .error e => .error e
    | .ok none => .ok none
    | .ok (some inp) =>
      match initTables with
      | .error e => .error e
      | .ok _ => .ok (some (process inp))

/-! ## Step-invariant operator (step_invariant package) -/

/-- Mutable state of `stepInvariantOperator` that `Next` reads and
writes. `cacheDone` models the consumed/unconsumed state of
`cacheVectorOnce`; `cachedVector` starts at its Go zero value. -/
structure SIState where
  mint : Int
  maxt : Int
  step : Int
  currentStep : Int
  stepsBatch : Nat
  cacheResult : Bool
  cacheDone : Bool
  cachedVector : StepVector
deriving DecidableEq, Repr

/-- Model of `NewStepInvariantOperator`: the interval is the query step,
raised to 1 when it is 0; caching is disabled for matrix selectors and
subqueries (`isMatrixOrSubquery`). -/
def NewStepInvariantOperator (mint maxt rawStep : Int) (stepsBatch : Nat)
    (isMatrixOrSubquery : Bool) : SIState :=
  let interval := if rawStep = 0 then 1 else rawStep
  { mint := mint
    maxt := maxt
    step := interval
    currentStep := mint
    stepsBatch := stepsBatch
    cacheResult := !isMatrixOrSubquery
    cacheDone := false
    cachedVector := ⟨0, [], []⟩ }

/-- Model of `stepInvariantOperator.cacheInputVector`. The child's first
`Next` outcome is `childNext`. Returns the error observed by this call
(`none` for success) and the updated state: the once-guard is consumed in
every case; the input is ignored when it is empty or its first step
vector has no samples; a multi-vector input with a non-empty first vector
is the `unexpected number of samples` contract violation; otherwise the
single step vector's samples and IDs are copied into a private vector
obtained from `GetStepVector(0)`. -/
def cacheInputVector (childNext : Except EngineError (Option (List StepVector)))
    (u : SIState) : Option EngineError × SIState :=
  if u.cacheDone then (none, u)
  else
    let u1 := { u with cacheDone := true }
    match childNext with
    | .error e => (some e, u1)
    | .ok v =>
      let inp := v.getD []
      if inp.length = 0 ∨ (inp.headD ⟨0, [], []⟩).Samples.length = 0 then (none, u1)
      else if inp.length ≠ 1 then (some (.errorMsg "unexpected number of samples"), u1)
      else
        let src := inp.headD ⟨0, [], []⟩
        (none, { u1 with cachedVector := ⟨0, src.SampleIDs, src.Samples⟩ })

/-- The replication loop of `stepInvariantOperator.Next`, by remaining
iteration count: while iterations remain and `currentStep ≤ maxt`, emit a
copy of the cached vector under the current step's timestamp and advance
the current step. Returns the emitted vectors and the final current
step. -/
def stepInvariantLoop (cached : StepVector) (maxt stp : Int) :
    Nat → Int → List StepVector × Int
  | 0, cs => ([], cs)
  | n + 1, cs =>
    if cs ≤ maxt then
      let rest := stepInvariantLoop cached maxt stp n (cs + stp)
      (⟨cs, cached.SampleIDs, cached.Samples⟩ :: rest.1, rest.2)
    else ([], cs)

/-- Model of `stepInvariantOperator.Next`: terminal marker once the
current step exceeds `maxt`; then the context poll; pass-through when
caching is disabled; then the one-shot caching of the child's vector; an
empty cached vector is terminal; otherwise a batch of up to `stepsBatch`
replicas is synthesized. -/
def stepInvariantNext (childNext : Except EngineError (Option (List StepVector)))
    (ctx : Ctx) (u : SIState) :
    (Except EngineError (Option (List StepVector))) × SIState :=
  if u.maxt < u.currentStep then (.ok none, u)
  else if ctx.canceled then (.error .contextCanceled, u)
  else if !u.cacheResult then (childNext, u)
  else
    match cacheInputVector childNext u with
    | (some e, u1) => (.error e, u1)
    | (none, u1) =>
      if u1.cachedVector.Samples.length = 0 then (.ok none, u1)
      else
        let r := stepInvariantLoop u1.cachedVector u1.maxt u1.step u1.stepsBatch u1.currentStep
        (.ok (some r.1), { u1 with currentStep := r.2 })

/-- Driver that repeatedly calls `stepInvariantNext` (as the engine's
`Exec` loop does) until the terminal marker, an error, or fuel
exhaustion, collecting the returned batches and the final state. -/
def stepInvariantRun (childNext : Except EngineError (Option (List StepVector)))
    (ctx : Ctx) : Nat → SIState → List (List StepVector) × SIState
  | 0, u => ([], u)
  | fuel + 1, u =>
    match stepInvariantNext childNext ctx u with
    | (.ok (some b), u1) =>
      let rest := stepInvariantRun childNext ctx fuel u1
      (b :: rest.1, rest.2)
    | (_, u1) => ([], u1)

/-- State of the one-shot `Series` machinery shared by the operators
(`seriesOnce` plus the memoised `series` field, Go zero values). -/
structure SeriesState where
  seriesDone : Bool
  series : List LabelSet
deriving DecidableEq, Repr

/-- The fresh `Series` state of a newly constructed operator. -/
def freshSeriesState : SeriesState := ⟨false, []⟩

/-- Model of `stepInvariantOperator.Series` (same shape as
`aggregate.Series` and `seriesSelector.GetSeries`): the local `err`
starts nil on every call; `seriesOnce.Do` runs the child call only the
first time, assigning both the series field and `err`; afterwards the
function returns the error, or the stored series. On the second call the
once-guard skips the closure, so `err` stays nil and the stored series is
returned even when the first call failed. -/
def stepInvariantSeries (childSeries : Except EngineError (List LabelSet))
    (s : SeriesState) : (Except EngineError (List LabelSet)) × SeriesState :=
  if s.seriesDone then (.ok s.series, s)
  else
    match childSeries with
    | .error e => (.error e, { s with seriesDone := true, series := [] })
    | .ok ls => (.ok ls, { s with seriesDone := true, series := ls })

/-! ## Selector pool (execution/storage/pool.go) -/

/-- Model of `labels.Matcher`: name, integer matcher type, value. -/
structure Matcher where
  name : String
  mtype : Int
  value : String
deriving DecidableEq, Repr

/-- Model of `storage.SelectHints` (the fields the engine touches). -/
structure SelectHints where
  Start : Int
  End : Int
  Step : Int
  Func : String
  Grouping : List String
  By : Bool
  Range : Int
deriving DecidableEq, Repr

/-- The xxhash digest is modelled by the exact byte stream written to it:
`Sum64` is abstracted as an injective function of that stream, so two
keys are equal exactly when the written streams are equal. Every write is
followed by the `sep` byte 0xFF. -/
def hashSep : String := "ÿ"

/-- Model of `writeString`: the value followed by the separator. -/
def writeString (acc val : String) : String := acc ++ val ++ hashSep

/-- Model of `writeInt64`: the decimal rendering followed by the separator. -/
def writeInt64 (acc : String) (val : Int) : String := acc ++ toString val ++ hashSep

/-- Model of `writeBool`: the Go `%t` rendering followed by the separator. -/
def writeBool (acc : String) (val : Bool) : String :=
  acc ++ (if val then "true" else "false") ++ hashSep

/-- Model of `writeMatcher`: name, then the decimal matcher type, then
the value. -/
def writeMatcher (acc : String) (m : Matcher) : String :=
  writeString (writeString (writeString acc m.name) (toString m.mtype)) m.value

/-- Model of `hashMatchers`: the stream fed to the digest, in source
order — the matchers, `mint`, `maxt`, `hints.Step`, `hints.Func`, the
semicolon-join of `hints.Grouping` AS GIVEN (the source does not sort
it), and `hints.By`. -/
def hashMatchers (matchers : List Matcher) (mint maxt : Int) (hints : SelectHints) : String :=
  let sb := matchers.foldl writeMatcher ""
  let sb := writeInt64 sb mint
  let sb := writeInt64 sb maxt
  let sb := writeInt64 sb hints.Step
  let sb := writeString sb hints.Func
  let sb := writeString sb (String.intercalate ";" hints.Grouping)
  writeBool sb hints.By

/-- Model of `SelectorPool`: the key-to-selector map, with selectors
identified by distinct ordinals handed out at creation (distinct
ordinals model distinct `seriesSelector` objects). -/
structure SelectorPool where
  selectors : List (String × Nat)
  nextOrdinal : Nat
deriving DecidableEq, Repr

/-- Model of `SelectorPool.GetSelector`: compute the key with
`hashMatchers`; create the selector on a key miss; return the selector
stored under the key. -/
def GetSelector (p : SelectorPool) (mint maxt _stp : Int) (matchers : List Matcher)
    (hints : SelectHints) : Nat × SelectorPool :=
  let key := hashMatchers matchers mint maxt hints
  match p.selectors.lookup key with
  | some s => (s, p)
  | none => (p.nextOrdinal, ⟨p.selectors ++ [(key, p.nextOrdinal)], p.nextOrdinal + 1⟩)

/-! ## Series selector sharding (storage package, seriesSelector) -/

/-- Model of `SignedSeries` over an abstract series type. -/
structure SignedSeries (α : Type) where
  series : α
  Signature : Nat
deriving DecidableEq, Repr

/-- The loop of `seriesSelector.loadSeries`, with the running counter
`i`: each series drained from the set is paired with the next ordinal. -/
def loadSeriesLoop {α : Type} : List α → Nat → List (SignedSeries α)
  | [], _ => []
  | s :: rest, i => ⟨s, i⟩ :: loadSeriesLoop rest (i + 1)

/-- Model of `seriesSelector.loadSeries`: signatures are the ordinals of
the series within the loaded set, starting at 0. -/
def loadSeries {α : Type} (ls : List α) : List (SignedSeries α) :=
  loadSeriesLoop ls 0

/-- Model of `seriesShard`: the slice
`series[shard*N/numShards : (shard+1)*N/numShards]` with the end bound
clipped to `N` (Go slicing `l[a:b]` is the elements at indices
`a ≤ i < b`, here `take` then `drop`). -/
def seriesShard {α : Type} (series : List (SignedSeries α)) (shard numShards : Nat) :
    List (SignedSeries α) :=
  let start := shard * series.length / numShards
  let e0 := (shard + 1) * series.length / numShards
  let e := if series.length < e0 then series.length else e0
  (series.take e).drop start

/-- The number of evaluation steps a step-invariant operator with bounds
`maxt`, step `stp` still has to emit when its current step is `cs`: the
count of timestamps `cs + k * stp ≤ maxt` for natural `k` (for
`1 ≤ stp`). Used to state and prove the replication property. -/
def remSteps (maxt stp cs : Int) : Nat :=
  if maxt < cs then 0 else ((maxt - cs) / stp + 1).toNat

/-- Claim C2: the claim states that constructing the vector accumulator
succeeds for every kind in sum, min, max, avg, count, group, stddev,
stdvar. In the source the `case "stddev":` body is empty and Go switches
do not fall through, so `"stddev"` construction FAILS with the
`unknown aggregation function` error wrapped around
`ErrNotSupportedExpr`; every other listed kind succeeds, and the
`"stdvar"` accumulator (the intended Welford closure) returns exactly 0
on a constant input. This theorem evaluates the code at the failing
input, witnessing the code bug. -/
theorem C2_stddev_constructor_fails :
    newVectorAccumulator "stddev" =
      .error (.wrap .notSupportedExpr "unknown aggregation function stddev") ∧
    (newVectorAccumulator "sum").isOk = true ∧
    (newVectorAccumulator "min").isOk = true ∧
    (newVectorAccumulator "max").isOk = true ∧
    (newVectorAccumulator "avg").isOk = true ∧
    (newVectorAccumulator "count").isOk = true ∧
    (newVectorAccumulator "group").isOk = true ∧
    (newVectorAccumulator "stdvar").isOk = true ∧
    newVectorAccumulator "stdvar" = .ok stdvarAccumulator ∧
    stdvarAccumulator [5, 5, 5, 5] = 0 := by
  refine ⟨rfl, rfl, rfl, rfl, rfl, rfl, rfl, rfl, rfl, ?_⟩
  norm_num [stdvarAccumulator, welfordLoop]

/-- Claim C10: if constructing the vectorized tables fails with an error
matching `ErrNotSupportedExpr`, table initialisation falls back to the
scalar (hash) table path instead of failing: the result of
`initializeVectorizedTables` is exactly the scalar-path result. -/
theorem C10_fallback_to_scalar_tables {σ : Type} (stepsBatch : Nat) (t : String)
    (scalarInit : Except EngineError σ) (e : EngineError)
    (h1 : newVectorizedTables stepsBatch t = .error e)
    (h2 : errorsIs e .notSupportedExpr = true) :
    initializeVectorizedTables stepsBatch t scalarInit = scalarInit.map Sum.inr := by
  simp [initializeVectorizedTables, h1, h2]

/-- Witness for C10, at the concrete aggregation kind `"stddev"` (whose
vectorized-table construction fails with a wrapped `ErrNotSupportedExpr`),
two batch slots, and a successful scalar path with result 7. -/
theorem C10_fallback_witness :
    initializeVectorizedTables (σ := Nat) 2 "stddev" (.ok 7) = (Except.ok 7).map Sum.inr :=
  C10_fallback_to_scalar_tables 2 "stddev" (.ok 7)
    (.wrap .notSupportedExpr "unknown aggregation function stddev") rfl rfl

/-- Auxiliary: a left fold preserves an invariant of the accumulator. -/
theorem foldl_invariant {α β : Type} (f : β → α → β) (P : β → Prop)
    (hf : ∀ s a, P s → P (f s a)) : ∀ (l : List α) (s : β), P s → P (l.foldl f s)
  | [], _, hs => hs
  | a :: l, s, hs => foldl_invariant f P hf l (f s a) (hf s a hs)

/-- Auxiliary: the per-sample loop of `scalarOperator.Next` appends a
value and a sample ID together, so the output step vector always has as
many samples as sample IDs. -/
theorem scalarProcessVector_lengths (g : GetOperandsFunc) (op : Operation) (vIdx : Nat)
    (scalar : ℚ) (v : StepVector) :
    (scalarProcessVector g op vIdx scalar v).Samples.length =
      (scalarProcessVector g op vIdx scalar v).SampleIDs.length := by
  unfold scalarProcessVector
  refine foldl_invariant _
    (fun s : StepVector => s.Samples.length = s.SampleIDs.length) ?_ _ _ rfl
  intro s a hs
  dsimp only
  by_cases h : (op (g v a scalar) vIdx).2 <;> simp [h, hs]

/-- Claim C1, counterexample: the vector-scalar operator CAN return an
empty non-nil batch while its child keeps producing step vectors. With a
comparison without `bool` (here: lhs > rhs against the scalar 5 on the
right) and a child batch holding one step vector whose only sample is 1,
every sample of every step is filtered out, and `Next` returns an empty
but non-nil batch, not the terminal `nil` marker. -/
theorem C1_empty_batch_counterexample :
    (scalarOperatorNext getOperandsScalarRight cmpGtNoBool 0 5 liveCtx (.ok ())
        (.ok (some [⟨0, [0], [1]⟩]))).1 = .ok (some []) ∧
    (Except.ok (some ([] : List StepVector)) :
        Except EngineError (Option (List StepVector))) ≠ .ok none := by
  exact ⟨rfl, fun h => by simp at h⟩

/-- Claim C1, amended: the vector-scalar operator's `Next` returns the
terminal `nil` exactly when its child returned `nil`; every step vector
in a returned batch is non-empty and has as many samples as sample IDs;
but the batch ITSELF may be empty (non-nil) while the child stream has
not terminated, namely when a comparison without `bool` filters out
every sample of every step in the batch. -/
theorem C1_scalar_batch_amended (g : GetOperandsFunc) (op : Operation)
    (vIdx : Nat) (scalar : ℚ) (ctx : Ctx) :
    ((scalarOperatorNext g op vIdx scalar ctx (.ok ()) (.ok none)).1 = .ok none) ∧
    ∀ inp : List StepVector, ∃ out : List StepVector,
      (scalarOperatorNext g op vIdx scalar ctx (.ok ()) (.ok (some inp))).1 = .ok (some out) ∧
      ∀ v ∈ out, v.Samples ≠ [] ∧ v.Samples.length = v.SampleIDs.length := by
  refine ⟨rfl, fun inp => ⟨(scalarProcessBatch g op vIdx scalar inp).1, rfl, ?_⟩⟩
  unfold scalarProcessBatch
  refine foldl_invariant _
    (fun acc : List StepVector × PoolTrace =>
      ∀ v ∈ acc.1, v.Samples ≠ [] ∧ v.Samples.length = v.SampleIDs.length)
    ?_ inp _ (by simp)
  intro s a hs
  dsimp only
  split
  · exact hs
  · rename_i hlen
    intro v hv
    rcases List.mem_append.mp hv with h | h
    · exact hs v h
    · have hv2 : v = scalarProcessVector g op vIdx scalar a := by simpa using h
      subst hv2
      refine ⟨fun hnil => hlen (by simp [hnil]), scalarProcessVector_lengths g op vIdx scalar a⟩

/-- Witness for the amended C1, with a child batch whose single sample 1
survives the comparison against the scalar 0. -/
theorem C1_scalar_batch_witness :
    ∃ out : List StepVector,
      (scalarOperatorNext getOperandsScalarRight cmpGtNoBool 0 0 liveCtx (.ok ())
          (.ok (some [⟨0, [0], [1]⟩]))).1 = .ok (some out) ∧
      ∀ v ∈ out, v.Samples ≠ [] ∧ v.Samples.length = v.SampleIDs.length :=
  (C1_scalar_batch_amended getOperandsScalarRight cmpGtNoBool 0 0 liveCtx).2 [⟨0, [0], [1]⟩]

/-- Claim C3, counterexample: the vector-scalar operator does NOT poll
the context: on an already-cancelled context, with a child whose batch is
still available, its `Next` consumes and processes the input and returns
a non-error result instead of the context error. -/
theorem C3_scalar_ignores_cancellation_counterexample :
    (scalarOperatorNext getOperandsScalarRight cmpGtNoBool 0 0 canceledCtx (.ok ())
        (.ok (some [⟨0, [0], [1]⟩]))).1 = .ok (some [⟨0, [0], [1]⟩]) ∧
    (scalarOperatorNext getOperandsScalarRight cmpGtNoBool 0 0 canceledCtx (.ok ())
        (.ok (some [⟨0, [0], [1]⟩]))).1 ≠ .error .contextCanceled := by
  constructor
  · rfl
  · intro h
    rw [show (scalarOperatorNext getOperandsScalarRight cmpGtNoBool 0 0 canceledCtx (.ok ())
        (.ok (some [⟨0, [0], [1]⟩]))).1 = .ok (some [⟨0, [0], [1]⟩]) from rfl] at h
    exact Except.noConfusion h

/-- Claim C3, amended: on an already-cancelled context, `aggregate.Next`
polls the context at entry and returns the context error without
consuming input; `stepInvariantOperator.Next` does the same whenever it
has not already terminated (its termination check precedes the poll);
the vector-scalar operator's `Next` does not poll the context and only
propagates an error returned by its child. -/
theorem C3_ctx_poll_amended (ctx : Ctx) (hc : ctx.canceled = true) :
    (∀ childNext initTables process,
      aggregateNext ctx childNext initTables process = .error .contextCanceled) ∧
    (∀ childNext u, ¬ (u.maxt < u.currentStep) →
      (stepInvariantNext childNext ctx u).1 = .error .contextCanceled) ∧
    (∀ g op vIdx scalar cs e,
      (scalarOperatorNext g op vIdx scalar ctx cs (.error e)).1 = .error e) := by
  refine ⟨?_, ?_, ?_⟩
  · intro childNext initTables process
    simp [aggregateNext, hc]
  · intro childNext u hu
    simp [stepInvariantNext, hu, hc]
  · intro g op vIdx scalar cs e
    rfl

/-- Witness for the amended C3: a cancelled context makes the
aggregation operator return the context error at entry. -/
theorem C3_ctx_poll_witness :
    aggregateNext canceledCtx (.ok none) (.ok ()) id = .error .contextCanceled :=
  (C3_ctx_poll_amended canceledCtx rfl).1 (.ok none) (.ok ()) id

/-- Claim C4, counterexample: when the first `Next` of the child returns
a batch of MORE than one step vector whose first step vector is empty,
`cacheInputVector` takes the early empty-input return before the
length-one check, so the operator returns the terminal marker and NOT
the `unexpected number of samples` error the claim requires. -/
theorem C4_first_vector_empty_counterexample :
    (stepInvariantNext (.ok (some [⟨0, [], []⟩, ⟨0, [0], [1]⟩])) liveCtx
        (NewStepInvariantOperator 0 10 1 2 false)).1 = .ok none ∧
    (stepInvariantNext (.ok (some [⟨0, [], []⟩, ⟨0, [0], [1]⟩])) liveCtx
        (NewStepInvariantOperator 0 10 1 2 false)).1 ≠
      .error (.errorMsg "unexpected number of samples") := by
  constructor
  · rfl
  · intro h
    rw [show (stepInvariantNext (.ok (some [⟨0, [], []⟩, ⟨0, [0], [1]⟩])) liveCtx
        (NewStepInvariantOperator 0 10 1 2 false)).1 = .ok none from rfl] at h
    exact Except.noConfusion h

/-- Claim C4, amended: in caching mode, when the child's first batch
holds more than one step vector, `Next` fails with
`unexpected number of samples` ONLY when the first step vector of that
batch is non-empty; when the first step vector is empty the operator
treats the input as empty and returns the terminal marker without
error. -/
theorem C4_multi_vector_error_amended (inp : List StepVector) (mint maxt rawStep : Int)
    (sb : Nat) (hlen : 2 ≤ inp.length) (hrange : ¬ (maxt < mint)) :
    ((inp.headD ⟨0, [], []⟩).Samples ≠ [] →
      (stepInvariantNext (.ok (some inp)) liveCtx
          (NewStepInvariantOperator mint maxt rawStep sb false)).1 =
        .error (.errorMsg "unexpected number of samples")) ∧
    ((inp.headD ⟨0, [], []⟩).Samples = [] →
      (stepInvariantNext (.ok (some inp)) liveCtx
          (NewStepInvariantOperator mint maxt rawStep sb false)).1 = .ok none) := by
  obtain ⟨a, b, rest, rfl⟩ : ∃ a b rest, inp = a :: b :: rest := by
    match inp, hlen with
    | a :: b :: rest, _ => exact ⟨a, b, rest, rfl⟩
  constructor
  · intro hne
    simp only [List.headD_cons] at hne
    simp [stepInvariantNext, NewStepInvariantOperator, cacheInputVector, hrange, liveCtx, hne]
  · intro hemp
    simp only [List.headD_cons] at hemp
    simp [stepInvariantNext, NewStepInvariantOperator, cacheInputVector, hrange, liveCtx, hemp]

/-- Witness for the amended C4: a two-vector child batch with a
non-empty first vector produces the contract-violation error. -/
theorem C4_multi_vector_error_witness :
    (stepInvariantNext (.ok (some [⟨0, [0], [1]⟩, ⟨0, [1], [2]⟩])) liveCtx
        (NewStepInvariantOperator 0 10 1 2 false)).1 =
      .error (.errorMsg "unexpected number of samples") :=
  (C4_multi_vector_error_amended [⟨0, [0], [1]⟩, ⟨0, [1], [2]⟩] 0 10 1 2 (by decide)
    (by decide)).1 (by decide)

/-- Claim C7, counterexample: the one-shot `Series` initialiser does NOT
memoise the error. With a child whose `Series` fails, the first call
returns the error, but the second call finds the once-guard consumed,
its fresh local error is nil, and it silently returns the (empty) stored
series with no error — exactly what the claim says cannot happen. -/
theorem C7_series_error_not_memoised_counterexample :
    ((stepInvariantSeries (.error (.errorMsg "boom")) freshSeriesState).1 =
      .error (.errorMsg "boom")) ∧
    ((stepInvariantSeries (.error (.errorMsg "boom"))
        (stepInvariantSeries (.error (.errorMsg "boom")) freshSeriesState).2).1 =
      .ok []) :=
  ⟨rfl, rfl⟩

/-- Claim C7, amended: `Series` is idempotent after a SUCCESSFUL first
call — every later call returns the first answer whatever the child
would now return; but a failed first call is not memoised: the error is
returned once and every later call returns the empty stored series with
no error. -/
theorem C7_series_memoisation_amended (ls : List LabelSet) (e : EngineError)
    (c2 : Except EngineError (List LabelSet)) :
    ((stepInvariantSeries (.ok ls) freshSeriesState).1 = .ok ls ∧
      (stepInvariantSeries c2 (stepInvariantSeries (.ok ls) freshSeriesState).2).1 = .ok ls) ∧
    ((stepInvariantSeries (.error e) freshSeriesState).1 = .error e ∧
      (stepInvariantSeries c2 (stepInvariantSeries (.error e) freshSeriesState).2).1 = .ok []) :=
  ⟨⟨rfl, rfl⟩, ⟨rfl, rfl⟩⟩

/-- Claim C8: pool-loan balance fails on the `continue` path of the
vector-scalar operator. With a child batch of one step vector whose only
sample is filtered out by the comparison, the operator obtains one fresh
step vector from its own pool (`selfStepGets = 1`) but neither emits it
(the output batch is empty) nor returns it (`selfStepPuts = 0`), and it
never returns the child's step vector either (`childStepPuts = 0`
although the child batch held one vector); only the batch slice is
released (`childBatchPuts = 1`). This theorem evaluates the code at the
failing input, witnessing the claimed Put calls that never happen. -/
theorem C8_filtered_step_pool_leak :
    scalarOperatorNext getOperandsScalarRight cmpGtNoBool 0 5 liveCtx (.ok ())
        (.ok (some [⟨0, [0], [1]⟩])) =
      (.ok (some []), ⟨1, 1, 0, 0, 1⟩) :=
  rfl

/-- Claim C6, counterexample: `hashMatchers` feeds the digest the
`Grouping` strings in their GIVEN order (it does not sort them), so two
`GetSelector` calls that differ only in the order of the grouping
strings hash different byte streams, get different keys, and the second
call creates and returns a different selector. -/
theorem C6_grouping_order_counterexample :
    (GetSelector
        (GetSelector ⟨[], 0⟩ 0 0 0 [] ⟨0, 0, 0, "", ["b", "a"], false, 0⟩).2
        0 0 0 [] ⟨0, 0, 0, "", ["a", "b"], false, 0⟩).1 ≠
      (GetSelector ⟨[], 0⟩ 0 0 0 [] ⟨0, 0, 0, "", ["b", "a"], false, 0⟩).1 ∧
    hashMatchers [] 0 0 ⟨0, 0, 0, "", ["b", "a"], false, 0⟩ ≠
      hashMatchers [] 0 0 ⟨0, 0, 0, "", ["a", "b"], false, 0⟩ := by
  constructor <;> decide

/-- Claim C6, amended: the selector pool key is a hash of the matchers,
`mint`, `maxt`, `hints.Step`, `hints.Func`, the UNSORTED `hints.Grouping`
(joined with semicolons in the order given) and `hints.By`; for two
calls that differ only in their `Grouping`, the computed keys agree
exactly when the semicolon-joins of the two grouping lists agree — so
reordering the grouping strings in general changes the key. -/
theorem C6_key_uses_unsorted_grouping (matchers : List Matcher) (mint maxt : Int)
    (hints : SelectHints) (g2 : List String) :
    hashMatchers matchers mint maxt hints =
        hashMatchers matchers mint maxt { hints with Grouping := g2 } ↔
      String.intercalate ";" hints.Grouping = String.intercalate ";" g2 := by
  constructor
  · intro h
    have h2 := congrArg String.data h
    simp only [hashMatchers, writeString, writeBool, writeInt64, String.data_append,
      List.append_assoc, List.append_right_inj, List.append_left_inj] at h2
    exact String.ext h2
  · intro h
    simp [hashMatchers, writeString, writeBool, writeInt64, h]

/-- Auxiliary: `loadSeries` keeps every series. -/
theorem loadSeriesLoop_length {α : Type} : ∀ (ls : List α) (i : Nat),
    (loadSeriesLoop ls i).length = ls.length
  | [], _ => rfl
  | _ :: rest, i => by simp [loadSeriesLoop, loadSeriesLoop_length rest (i + 1)]

/-- Auxiliary: the element at position `j` of the load loop started at
counter `i` carries signature `i + j`. -/
theorem loadSeriesLoop_sig {α : Type} : ∀ (ls : List α) (i j : Nat)
    (hj : j < (loadSeriesLoop ls i).length),
    ((loadSeriesLoop ls i).get ⟨j, hj⟩).Signature = i + j := by
  intro ls
  induction ls with
  | nil =>
    intro i j hj
    simp [loadSeriesLoop] at hj
  | cons s rest ih =>
    intro i j hj
    cases j with
    | zero => rfl
    | succ j2 =>
      have h2 : j2 < (loadSeriesLoop rest (i + 1)).length := by
        simpa [loadSeriesLoop] using hj
      have h3 := ih (i + 1) j2 h2
      simp only [List.get_eq_getElem] at h3 ⊢
      simp only [loadSeriesLoop, List.getElem_cons_succ]
      rw [h3]
      omega

/-- Auxiliary: for `shard < numShards`, the end bound of the shard slice
never exceeds the series count, so the Go clipping is a no-op. -/
theorem seriesShard_end_le {α : Type} (series : List (SignedSeries α)) (shard numShards : Nat)
    (hnum : 0 < numShards) (hsh : shard < numShards) :
    (shard + 1) * series.length / numShards ≤ series.length := by
  calc (shard + 1) * series.length / numShards
      ≤ numShards * series.length / numShards :=
        Nat.div_le_div_right (Nat.mul_le_mul_right _ hsh)
    _ = series.length := Nat.mul_div_cancel_left _ hnum

/-- Auxiliary: for an in-range shard, `seriesShard` is exactly the
contiguous slice in drop/take form. -/
theorem seriesShard_slice {α : Type} (series : List (SignedSeries α)) (shard numShards : Nat)
    (hnum : 0 < numShards) (hsh : shard < numShards) :
    seriesShard series shard numShards =
      (series.drop (shard * series.length / numShards)).take
        ((shard + 1) * series.length / numShards - shard * series.length / numShards) := by
  have hE := seriesShard_end_le series shard numShards hnum hsh
  simp only [seriesShard]
  rw [if_neg (by omega)]
  exact List.drop_take ..

/-- Auxiliary: inside any drop/take slice of the loaded series, the
element at offset `j` carries the signature `start + j`. -/
theorem loadSeries_slice_sig {α : Type} (ls : List α) (s t j : Nat)
    (hj : j < (((loadSeries ls).drop s).take t).length) :
    ((((loadSeries ls).drop s).take t).get ⟨j, hj⟩).Signature = s + j := by
  have hb : s + j < (loadSeries ls).length := by
    simp only [List.length_take, List.length_drop] at hj
    omega
  simp only [List.get_eq_getElem, List.getElem_take, List.getElem_drop]
  have h3 := loadSeriesLoop_sig ls 0 (s + j) (by simpa [loadSeries] using hb)
  simp only [List.get_eq_getElem] at h3
  simpa [loadSeries] using h3

/-- Auxiliary: the concatenation of the first `k` shards is the prefix
of the loaded series up to the `k`-th boundary. -/
theorem seriesShard_flatten_aux {α : Type} (ls : List α) (numShards : Nat)
    (hnum : 0 < numShards) :
    ∀ k, k ≤ numShards →
      ((List.range k).map fun sh => seriesShard (loadSeries ls) sh numShards).flatten =
        (loadSeries ls).take (k * (loadSeries ls).length / numShards) := by
  intro k
  induction k with
  | zero => intro _; simp
  | succ k2 ih =>
    intro hk
    rw [List.range_succ, List.map_append, List.flatten_append, ih (by omega)]
    simp only [List.map_cons, List.map_nil, List.flatten_cons, List.flatten_nil,
      List.append_nil]
    rw [seriesShard_slice (loadSeries ls) k2 numShards hnum (by omega)]
    rw [← List.take_add]
    congr 1
    have hmono : k2 * (loadSeries ls).length / numShards ≤
        (k2 + 1) * (loadSeries ls).length / numShards :=
      Nat.div_le_div_right (Nat.mul_le_mul_right _ (by omega))
    omega

/-- Claim C9: for a selector that has loaded `N` series,
`GetSeries(shard, numShards)` (for `shard < numShards`) returns exactly
the contiguous slice from `shard*N/numShards` (inclusive) to
`(shard+1)*N/numShards` (exclusive) of the loaded series under integer
division; each returned element's `Signature` is its ordinal position in
the full loaded set (slicing does not renumber); and the shards for
`shard = 0 … numShards-1` concatenate, in order, to the full loaded
list. -/
theorem C9_sharding_partitions (α : Type) (ls : List α) (numShards : Nat)
    (hnum : 0 < numShards) :
    (∀ shard, shard < numShards →
      seriesShard (loadSeries ls) shard numShards =
        ((loadSeries ls).drop (shard * (loadSeries ls).length / numShards)).take
          ((shard + 1) * (loadSeries ls).length / numShards -
            shard * (loadSeries ls).length / numShards)) ∧
    (∀ shard, shard < numShards → ∀ (j : Nat)
      (hj : j < (seriesShard (loadSeries ls) shard numShards).length),
      ((seriesShard (loadSeries ls) shard numShards).get ⟨j, hj⟩).Signature =
        shard * (loadSeries ls).length / numShards + j) ∧
    ((List.range numShards).map fun sh => seriesShard (loadSeries ls) sh numShards).flatten =
      loadSeries ls := by
  refine ⟨fun shard hsh => seriesShard_slice (loadSeries ls) shard numShards hnum hsh,
    ?_, ?_⟩
  · intro shard hsh j hj
    have hs := seriesShard_slice (loadSeries ls) shard numShards hnum hsh
    rw [List.get_of_eq hs ⟨j, hj⟩]
    exact loadSeries_slice_sig ls _ _ j _
  · rw [seriesShard_flatten_aux ls numShards hnum numShards le_rfl,
      Nat.mul_div_cancel_left _ hnum, List.take_length]

/-- Witness for C9 with three loaded series split into two shards: the
shards concatenate to the loaded list, and the single element of shard 1
carries its ordinal in the full set as signature. -/
theorem C9_sharding_witness :
    (((List.range 2).map fun sh => seriesShard (loadSeries ["a", "b", "c"]) sh 2).flatten =
        loadSeries ["a", "b", "c"]) ∧
    ((seriesShard (loadSeries ["a", "b", "c"]) 1 2).get ⟨0, by decide⟩).Signature =
        1 * (loadSeries ["a", "b", "c"]).length / 2 + 0 :=
  ⟨(C9_sharding_partitions String ["a", "b", "c"] 2 (by decide)).2.2,
    (C9_sharding_partitions String ["a", "b", "c"] 2 (by decide)).2.1 1 (by decide) 0
      (by decide)⟩

/-- Witness for the amended C6: with equal grouping joins the keys agree
(same hints, grouping re-supplied unchanged). -/
theorem C6_key_unsorted_witness :
    hashMatchers [] 0 0 ⟨0, 0, 0, "", ["a", "b"], false, 0⟩ =
      hashMatchers [] 0 0
        { (⟨0, 0, 0, "", ["a", "b"], false, 0⟩ : SelectHints) with Grouping := ["a", "b"] } :=
  (C6_key_uses_unsorted_grouping [] 0 0 ⟨0, 0, 0, "", ["a", "b"], false, 0⟩ ["a", "b"]).mpr rfl

/-- Witness for the amended C7 at a concrete label set, error and second
child outcome. -/
theorem C7_series_memoisation_witness :
    ((stepInvariantSeries (.ok [[("a", "b")]]) freshSeriesState).1 = .ok [[("a", "b")]] ∧
      (stepInvariantSeries (.error .contextCanceled)
          (stepInvariantSeries (.ok [[("a", "b")]]) freshSeriesState).2).1 =
        .ok [[("a", "b")]]) ∧
    ((stepInvariantSeries (.error (.errorMsg "x")) freshSeriesState).1 =
        .error (.errorMsg "x") ∧
      (stepInvariantSeries (.error .contextCanceled)
          (stepInvariantSeries (.error (.errorMsg "x")) freshSeriesState).2).1 = .ok []) :=
  C7_series_memoisation_amended [[("a", "b")]] (.errorMsg "x") (.error .contextCanceled)

/-- Auxiliary: the replication loop emits nothing once the current step
exceeds `maxt`. -/
theorem stepInvariantLoop_terminal (c : StepVector) (maxt stp : Int) :
    ∀ (n : Nat) (cs : Int), maxt < cs → stepInvariantLoop c maxt stp n cs = ([], cs)
  | 0, _, _ => rfl
  | n + 1, cs, h => by simp [stepInvariantLoop, not_le.mpr h]

/-- Auxiliary: `remSteps` counts exactly the natural `k` with
`cs + k * stp ≤ maxt`. -/
theorem remSteps_iff (maxt stp cs : Int) (hstp : 1 ≤ stp) (k : Nat) :
    k < remSteps maxt stp cs ↔ cs + (k : Int) * stp ≤ maxt := by
  unfold remSteps
  split
  · rename_i h
    constructor
    · omega
    · intro h2
      have hk : (0 : Int) ≤ (k : Int) * stp := mul_nonneg (by positivity) (by omega)
      omega
  · rename_i h
    have hq : (0 : Int) ≤ (maxt - cs) / stp := Int.ediv_nonneg (by omega) (by omega)
    constructor
    · intro hk
      have h2 : (k : Int) ≤ (maxt - cs) / stp := by omega
      have h3 := (Int.le_ediv_iff_mul_le (by omega : (0 : Int) < stp)).mp h2
      omega
    · intro hk
      have h2 : (k : Int) * stp ≤ maxt - cs := by omega
      have h3 := (Int.le_ediv_iff_mul_le (by omega : (0 : Int) < stp)).mpr h2
      omega

/-- Auxiliary: once `remSteps` many steps have been emitted, the current
step has passed `maxt`. -/
theorem remSteps_final (maxt stp cs : Int) (hstp : 1 ≤ stp) :
    maxt < cs + (remSteps maxt stp cs : Int) * stp := by
  unfold remSteps
  split
  · rename_i h
    simpa using h
  · rename_i h
    have hq : (0 : Int) ≤ (maxt - cs) / stp := Int.ediv_nonneg (by omega) (by omega)
    have h2 := Int.lt_ediv_add_one_mul_self (maxt - cs) (by omega : (0 : Int) < stp)
    have h3 : (((((maxt - cs) / stp + 1).toNat : Nat)) : Int) = (maxt - cs) / stp + 1 := by
      omega
    rw [h3]
    omega

/-- Auxiliary: past `maxt` there are no steps left. -/
theorem remSteps_zero_of_lt (maxt stp cs : Int) (h : maxt < cs) :
    remSteps maxt stp cs = 0 := by
  unfold remSteps
  rw [if_pos h]

/-- Auxiliary: advancing the current step by `m ≤ remSteps` steps leaves
exactly `remSteps - m` steps. -/
theorem remSteps_advance (maxt stp cs : Int) (hstp : 1 ≤ stp) (hin : ¬ maxt < cs)
    (m : Nat) (hm : m ≤ remSteps maxt stp cs) :
    remSteps maxt stp (cs + (m : Int) * stp) = remSteps maxt stp cs - m := by
  rcases Nat.lt_or_ge m (remSteps maxt stp cs) with hlt | hge
  · have hcs2 : cs + (m : Int) * stp ≤ maxt := (remSteps_iff maxt stp cs hstp m).mp hlt
    have hq : (0 : Int) ≤ (maxt - cs) / stp := Int.ediv_nonneg (by omega) (by omega)
    have hmq : (m : Int) ≤ (maxt - cs) / stp := by
      unfold remSteps at hlt
      rw [if_neg hin] at hlt
      omega
    have hdiv : (maxt - (cs + (m : Int) * stp)) / stp = (maxt - cs) / stp - m := by
      have h3 : maxt - (cs + (m : Int) * stp) = maxt - cs + (-(m : Int)) * stp := by ring
      rw [h3, Int.add_mul_ediv_right _ _ (by omega : stp ≠ 0)]
      ring
    unfold remSteps
    rw [if_neg (by omega : ¬ maxt < cs + (m : Int) * stp), if_neg hin, hdiv]
    omega
  · have hmeq : m = remSteps maxt stp cs := by omega
    subst hmeq
    have hfin := remSteps_final maxt stp cs hstp
    rw [remSteps_zero_of_lt _ _ _ hfin]
    omega

/-- Auxiliary: with a positive step and the current step still in range,
the replication loop emits one copy of the cached vector per remaining
step, bounded by the iteration budget, at timestamps advancing by `stp`,
and leaves the current step right after the last emitted timestamp. -/
theorem stepInvariantLoop_spec (c : StepVector) (maxt stp : Int) (hstp : 1 ≤ stp) :
    ∀ (n : Nat) (cs : Int), cs ≤ maxt →
      stepInvariantLoop c maxt stp n cs =
        ((List.range (min n (remSteps maxt stp cs))).map
            (fun k => ⟨cs + (k : Int) * stp, c.SampleIDs, c.Samples⟩),
          cs + ((min n (remSteps maxt stp cs) : Nat) : Int) * stp) := by
  intro n
  induction n with
  | zero =>
    intro cs h
    simp [stepInvariantLoop]
  | succ n2 ih =>
    intro cs h
    have hR : 1 ≤ remSteps maxt stp cs := by
      have h0 := (remSteps_iff maxt stp cs hstp 0).mpr (by simpa using h)
      omega
    simp only [stepInvariantLoop, if_pos h]
    by_cases h2 : cs + stp ≤ maxt
    · rw [ih (cs + stp) h2]
      have hrem2 : remSteps maxt stp (cs + stp) = remSteps maxt stp cs - 1 := by
        have ha := remSteps_advance maxt stp cs hstp (by omega) 1 hR
        simpa using ha
      rw [hrem2]
      have hmin : min (n2 + 1) (remSteps maxt stp cs) =
          min n2 (remSteps maxt stp cs - 1) + 1 := by omega
      rw [hmin]
      simp only [Prod.mk.injEq]
      constructor
      · rw [List.range_succ_eq_map, List.map_cons, List.map_map]
        congr 1
        · simp
        · apply List.map_congr_left
          intro k _
          simp only [Function.comp_apply]
          congr 1
          push_cast
          ring
      · rw [Nat.cast_add, Nat.cast_one]
        ring
    · have ha := remSteps_advance maxt stp cs hstp (by omega) 1 hR
      simp only [Nat.cast_one, one_mul] at ha
      have hz := remSteps_zero_of_lt maxt stp (cs + stp) (by omega)
      have hrem1 : remSteps maxt stp cs = 1 := by omega
      rw [stepInvariantLoop_terminal c maxt stp n2 (cs + stp) (by omega)]
      rw [hrem1]
      have hmin : min (n2 + 1) 1 = 1 := by omega
      rw [hmin]
      simp [List.range_succ]

/-- Auxiliary: one `Next` call in the emitting phase (cache already
populated with a non-empty vector, current step in range, live
context). -/
theorem stepInvariantNext_emit (childNext : Except EngineError (Option (List StepVector)))
    (u : SIState) (hdone : u.cacheDone = true) (hres : u.cacheResult = true)
    (hne : u.cachedVector.Samples ≠ []) (hin : ¬ u.maxt < u.currentStep) :
    stepInvariantNext childNext liveCtx u =
      (.ok (some (stepInvariantLoop u.cachedVector u.maxt u.step u.stepsBatch u.currentStep).1),
        { u with currentStep :=
            (stepInvariantLoop u.cachedVector u.maxt u.step u.stepsBatch u.currentStep).2 }) := by
  simp [stepInvariantNext, cacheInputVector, hdone, hres, hin, liveCtx, hne]

/-- Auxiliary: the driver loop in the emitting phase. With enough fuel,
the concatenation of all batches is exactly one replica of the cached
vector per remaining step, every batch has between 1 and `stepsBatch`
step vectors, and the loop ends with the current step advanced past the
last remaining timestamp. -/
theorem stepInvariantRun_spec (childNext : Except EngineError (Option (List StepVector))) :
    ∀ (fuel : Nat) (u : SIState), u.cacheDone = true → u.cacheResult = true →
      u.cachedVector.Samples ≠ [] → 1 ≤ u.step → 1 ≤ u.stepsBatch →
      remSteps u.maxt u.step u.currentStep ≤ fuel →
      (stepInvariantRun childNext liveCtx fuel u).1.flatten =
          (List.range (remSteps u.maxt u.step u.currentStep)).map
            (fun k => ⟨u.currentStep + (k : Int) * u.step,
              u.cachedVector.SampleIDs, u.cachedVector.Samples⟩) ∧
        (∀ b ∈ (stepInvariantRun childNext liveCtx fuel u).1,
          b.length ≤ u.stepsBatch ∧ b ≠ []) ∧
        (stepInvariantRun childNext liveCtx fuel u).2 =
          { u with currentStep := u.currentStep +
              ((remSteps u.maxt u.step u.currentStep : Nat) : Int) * u.step } := by
  intro fuel
  induction fuel with
  | zero =>
    intro u h1 h2 h3 h4 h5 hf
    have hR0 : remSteps u.maxt u.step u.currentStep = 0 := by omega
    rw [hR0]
    refine ⟨by simp [stepInvariantRun], by simp [stepInvariantRun], ?_⟩
    simp [stepInvariantRun]
  | succ f ih =>
    intro u h1 h2 h3 h4 h5 hf
    by_cases hin : u.maxt < u.currentStep
    · have hR0 : remSteps u.maxt u.step u.currentStep = 0 :=
        remSteps_zero_of_lt _ _ _ hin
      have hnext : stepInvariantNext childNext liveCtx u = (.ok none, u) := by
        simp [stepInvariantNext, hin]
      have hrun : stepInvariantRun childNext liveCtx (f + 1) u = ([], u) := by
        simp only [stepInvariantRun]
        rw [hnext]
      rw [hrun, hR0]
      refine ⟨by simp, by simp, ?_⟩
      simp
    · have hloop := stepInvariantLoop_spec u.cachedVector u.maxt u.step h4
        u.stepsBatch u.currentStep (by omega)
      have hnext := stepInvariantNext_emit childNext u h1 h2 h3 hin
      rw [hloop] at hnext
      set R := remSteps u.maxt u.step u.currentStep with hRdef
      set m := min u.stepsBatch R with hmdef
      have hR1 : 1 ≤ R := by
        have h0 := (remSteps_iff u.maxt u.step u.currentStep h4 0).mpr
          (by simpa using (by omega : u.currentStep ≤ u.maxt))
        omega
      have hm1 : 1 ≤ m := by omega
      have hmR : m ≤ R := by omega
      set u1 : SIState := { u with currentStep := u.currentStep + (m : Int) * u.step }
        with hu1
      have hrun : stepInvariantRun childNext liveCtx (f + 1) u =
          (((List.range m).map
              (fun k => ⟨u.currentStep + (k : Int) * u.step,
                u.cachedVector.SampleIDs, u.cachedVector.Samples⟩)) ::
            (stepInvariantRun childNext liveCtx f u1).1,
            (stepInvariantRun childNext liveCtx f u1).2) := by
        simp only [stepInvariantRun]
        rw [hnext]
      have hrem1 : remSteps u1.maxt u1.step u1.currentStep = R - m := by
        show remSteps u.maxt u.step (u.currentStep + (m : Int) * u.step) = R - m
        exact remSteps_advance u.maxt u.step u.currentStep h4 hin m hmR
      have hihres := ih u1 h1 h2 h3 h4 h5 (by rw [hrem1]; omega)
      rw [hrem1] at hihres
      obtain ⟨ihflat, ihbatch, ihstate⟩ := hihres
      refine ⟨?_, ?_, ?_⟩
      · rw [hrun]
        rw [List.flatten_cons, ihflat]
        rw [show R = m + (R - m) by omega, List.range_add, List.map_append, List.map_map]
        congr 1
        rw [show m + (R - m) - m = R - m by omega]
        apply List.map_congr_left
        intro k _
        show (⟨u1.currentStep + (k : Int) * u1.step, u1.cachedVector.SampleIDs,
            u1.cachedVector.Samples⟩ : StepVector) =
          ⟨u.currentStep + ((m + k : Nat) : Int) * u.step,
            u.cachedVector.SampleIDs, u.cachedVector.Samples⟩
        simp only [hu1]
        congr 1
        push_cast
        ring
      · rw [hrun]
        intro b hb
        rcases List.mem_cons.mp hb with hb1 | hb2
        · constructor
          · rw [hb1]
            simp only [List.length_map, List.length_range]
            omega
          · rw [hb1]
            apply List.ne_nil_of_length_pos
            simp only [List.length_map, List.length_range]
            omega
        · exact ihbatch b hb2
      · rw [hrun]
        rw [ihstate]
        simp only [hu1]
        congr 1
        have hc : ((R - m : Nat) : Int) = (R : Int) - (m : Int) := by omega
        rw [hc]
        ring

/-- Auxiliary: once the current step exceeds `maxt`, `Next` returns the
terminal marker. -/
theorem stepInvariantNext_terminal (childNext : Except EngineError (Option (List StepVector)))
    (ctx : Ctx) (u : SIState) (h : u.maxt < u.currentStep) :
    (stepInvariantNext childNext ctx u).1 = .ok none := by
  simp [stepInvariantNext, h]

/-- Claim C5: for the step-invariant operator in caching mode whose
child returns exactly one non-empty step vector `v`: with the interval
treated as 1 when the raw query step is 0, the step count `N` counts
exactly the timestamps `mint + k·step ≤ maxt`; the concatenation of all
batches returned by successive `Next` calls carries exactly `v`'s
samples and sample IDs under the timestamps `mint, mint+step, …` in
order; every returned batch has at least 1 and at most `stepsBatch`
step vectors; and after the run the operator's `Next` returns the
terminal marker, its current step having exceeded `maxt`. -/
theorem C5_step_invariant_replication (mint maxt rawStep : Int) (stepsBatch : Nat)
    (v : StepVector) (stp : Int) (N : Nat)
    (hraw : 0 ≤ rawStep) (hsb : 1 ≤ stepsBatch) (hv : v.Samples ≠ [])
    (hstp : stp = if rawStep = 0 then 1 else rawStep)
    (hN : N = remSteps maxt stp mint) :
    (∀ k : Nat, k < N ↔ mint + (k : Int) * stp ≤ maxt) ∧
    (stepInvariantRun (.ok (some [v])) liveCtx (N + 1)
        (NewStepInvariantOperator mint maxt rawStep stepsBatch false)).1.flatten =
      (List.range N).map (fun k => ⟨mint + (k : Int) * stp, v.SampleIDs, v.Samples⟩) ∧
    (∀ b ∈ (stepInvariantRun (.ok (some [v])) liveCtx (N + 1)
        (NewStepInvariantOperator mint maxt rawStep stepsBatch false)).1,
      b.length ≤ stepsBatch ∧ b ≠ []) ∧
    (stepInvariantNext (.ok (some [v])) liveCtx
        (stepInvariantRun (.ok (some [v])) liveCtx (N + 1)
          (NewStepInvariantOperator mint maxt rawStep stepsBatch false)).2).1 = .ok none ∧
    maxt < (stepInvariantRun (.ok (some [v])) liveCtx (N + 1)
        (NewStepInvariantOperator mint maxt rawStep stepsBatch false)).2.currentStep := by
  have hstp1 : 1 ≤ stp := by
    rw [hstp]
    split <;> omega
  subst hN
  set u0 := NewStepInvariantOperator mint maxt rawStep stepsBatch false with hu0
  refine ⟨fun k => remSteps_iff maxt stp mint hstp1 k, ?_⟩
  by_cases hinit : maxt < mint
  · have hN0 : remSteps maxt stp mint = 0 := remSteps_zero_of_lt _ _ _ hinit
    have hnext0 : stepInvariantNext (.ok (some [v])) liveCtx u0 = (.ok none, u0) := by
      simp [stepInvariantNext, hu0, NewStepInvariantOperator, hinit]
    have h01 : stepInvariantRun (.ok (some [v])) liveCtx (remSteps maxt stp mint + 1) u0 =
        ([], u0) := by
      simp only [stepInvariantRun]
      rw [hnext0]
    refine ⟨?_, ?_, ?_, ?_⟩
    · rw [h01, hN0]
      simp
    · rw [h01]
      simp
    · rw [h01]
      rw [hnext0]
    · rw [h01]
      simp only [hu0, NewStepInvariantOperator]
      exact hinit
  · set u1 : SIState :=
      { mint := mint, maxt := maxt, step := stp, currentStep := mint,
        stepsBatch := stepsBatch, cacheResult := true, cacheDone := true,
        cachedVector := ⟨0, v.SampleIDs, v.Samples⟩ } with hu1v
    have hd : u1.cacheDone = true := by rw [hu1v]
    have hr : u1.cacheResult = true := by rw [hu1v]
    have hn : u1.cachedVector.Samples ≠ [] := by
      rw [hu1v]
      exact hv
    have hi : ¬ u1.maxt < u1.currentStep := by
      rw [hu1v]
      exact hinit
    have hB := stepInvariantNext_emit (.ok (some [v])) u1 hd hr hn hi
    have hA : stepInvariantNext (.ok (some [v])) liveCtx u0 =
        stepInvariantNext (.ok (some [v])) liveCtx u1 := by
      rw [hB]
      simp [stepInvariantNext, cacheInputVector, hu0, hu1v, NewStepInvariantOperator,
        hinit, hv, liveCtx, ← hstp]
    have hrunEq : stepInvariantRun (.ok (some [v])) liveCtx (remSteps maxt stp mint + 1) u0 =
        stepInvariantRun (.ok (some [v])) liveCtx (remSteps maxt stp mint + 1) u1 := by
      simp only [stepInvariantRun]
      rw [hA]
    have hstep1 : 1 ≤ u1.step := by
      rw [hu1v]
      exact hstp1
    have hsb1 : 1 ≤ u1.stepsBatch := by
      rw [hu1v]
      exact hsb
    have hfuel : remSteps u1.maxt u1.step u1.currentStep ≤ remSteps maxt stp mint + 1 := by
      simp only [hu1v]
      omega
    obtain ⟨sflat, sbatch, sstate⟩ := stepInvariantRun_spec (.ok (some [v]))
      (remSteps maxt stp mint + 1) u1 hd hr hn hstep1 hsb1 hfuel
    have hfin := remSteps_final maxt stp mint hstp1
    refine ⟨?_, ?_, ?_, ?_⟩
    · rw [hrunEq, sflat]
    · rw [hrunEq]
      intro b hb
      have hbb := sbatch b hb
      simpa [hu1v] using hbb
    · rw [hrunEq, sstate]
      exact stepInvariantNext_terminal (.ok (some [v])) liveCtx _ hfin
    · rw [hrunEq, sstate]
      exact hfin

/-- Witness for C5: range 0..5 at raw step 2, batches of 2, cached
vector with the single sample 3: the three timestamps 0, 2, 4 each carry
the cached samples. -/
theorem C5_step_invariant_witness :
    (stepInvariantRun (.ok (some [⟨7, [0], [3]⟩])) liveCtx (3 + 1)
        (NewStepInvariantOperator 0 5 2 2 false)).1.flatten =
      (List.range 3).map (fun k => ⟨0 + (k : Int) * 2, [0], [3]⟩) :=
  (C5_step_invariant_replication 0 5 2 2 ⟨7, [0], [3]⟩ 2 3 (by decide) (by decide)
    (by decide) (by decide) (by decide)).2.1
